import Mathlib

/-!
Verification of the X-ray semantic-segmentation pipeline
(`src/data/dataset.py`, `src/train.py`).

The Python code is shallowly embedded: path manipulation is modelled on
`String`/`List Char`, numpy arrays as functions with explicit dimensions,
the on-disk cache as a partial map from paths to arrays, and the training
and validation loops as explicit state-passing recursion over the batch
list.  Machine-learning quantities (losses, dice scores, pixels) are
rationals.
-/

namespace XRay

/-- Index of the last occurrence of `c` in `l` (Python `str.rfind`). -/
def lastIdxOf (l : List Char) (c : Char) : Option Nat :=
  match l.reverse.indexOf? c with
  | none => none
  | some i => some (l.length - 1 - i)

/-- `os.path.basename` for POSIX paths: everything after the last slash. -/
def basename (s : String) : String :=
  match lastIdxOf s.data '/' with
  | none => s
  | some j => String.mk (s.data.drop (j + 1))

/-- `os.path.dirname` for POSIX paths: the prefix up to the last slash,
with trailing slashes stripped unless the head is all slashes. -/
def dirname (s : String) : String :=
  let cs := s.data
  let i : Nat := match lastIdxOf cs '/' with | none => 0 | some j => j + 1
  let head := cs.take i
  if head ≠ [] ∧ ¬ head.all (fun c => c = '/') then
    String.mk ((head.reverse.dropWhile (fun c => c = '/')).reverse)
  else
    String.mk head

/-- The stem part of `os.path.splitext`: the path with its extension
stripped.  The extension starts at the last dot of the final path
component, provided some earlier character of that component is not a
dot (so dotfiles such as `.bashrc` keep their name). -/
def splitextStem (s : String) : String :=
  let cs := s.data
  let fnStart : Nat := match lastIdxOf cs '/' with | none => 0 | some j => j + 1
  match lastIdxOf cs '.' with
  | none => s
  | some d =>
    if fnStart ≤ d ∧ (List.range' fnStart (d - fnStart)).any (fun i => cs.getD i '.' ≠ '.') then
      String.mk (cs.take d)
    else s

/-! ### The filename-matching assertions (`XRayDataset.__init__`, lines 34-38)

```python
jsons_fn_prefix = {os.path.splitext(fname)[0] for fname in jsons}
pngs_fn_prefix = {os.path.splitext(fname)[0] for fname in pngs}
assert len(jsons_fn_prefix - pngs_fn_prefix) == 0
assert len(pngs_fn_prefix - jsons_fn_prefix) == 0
```
-/

/-- The set of extension-stripped prefixes of a set of filenames. -/
def fnPrefixSet (files : Finset String) : Finset String :=
  files.image splitextStem

/-- Both `assert` statements of `XRayDataset.__init__` succeed: each set
difference of the two prefix sets is empty. -/
def assertionsPass (pngs jsons : Finset String) : Prop :=
  (fnPrefixSet jsons \ fnPrefixSet pngs).card = 0 ∧
  (fnPrefixSet pngs \ fnPrefixSet jsons).card = 0

instance (pngs jsons : Finset String) : Decidable (assertionsPass pngs jsons) := by
  unfold assertionsPass; infer_instance

/-! ### Sliding-window expansion of the filename lists
(`XRayDataset.__init__`, lines 85-87)

```python
if config.TRAIN.SLIDING_WINDOW:
    self.filenames = [item for item in filenames for _ in range(9)]
    self.labelnames = [item for item in filenames for _ in range(9)]
```
-/

/-- `[item for item in l for _ in range(9)]`. -/
def slidingExpand (l : List String) : List String :=
  l.flatMap (fun item => List.replicate 9 item)

/-- The filename and labelname lists resulting from the final step of
`XRayDataset.__init__`: with `SLIDING_WINDOW` on, both lists are rebuilt
from `filenames`; otherwise they are kept as they are. -/
def initNames (slidingWindow : Bool) (filenames labelnames : List String) :
    List String × List String :=
  if slidingWindow then (slidingExpand filenames, slidingExpand filenames)
  else (filenames, labelnames)

theorem slidingExpand_cons (x : String) (xs : List String) :
    slidingExpand (x :: xs) = List.replicate 9 x ++ slidingExpand xs := by
  simp [slidingExpand]

theorem slidingExpand_length (l : List String) :
    (slidingExpand l).length = 9 * l.length := by
  induction l with
  | nil => simp [slidingExpand]
  | cons x xs ih =>
    rw [slidingExpand_cons]
    simp only [List.length_append, List.length_replicate, List.length_cons, ih]
    ring

theorem slidingExpand_getD (l : List String) (i : Nat) (hi : i < 9 * l.length) :
    (slidingExpand l).getD i "" = l.getD (i / 9) "" := by
  induction l generalizing i with
  | nil => simp at hi
  | cons x xs ih =>
    rw [slidingExpand_cons]
    rcases Nat.lt_or_ge i 9 with h9 | h9
    · rw [List.getD_append _ _ _ _ (by simpa using h9), Nat.div_eq_of_lt h9]
      have : (List.replicate 9 x).getD i "" = x := by
        rw [List.getD_eq_getElem _ _ (by simpa using h9)]
        exact List.getElem_replicate ..
      rw [this, List.getD_cons_zero]
    · obtain ⟨j, rfl⟩ : ∃ j, i = j + 9 := ⟨i - 9, by omega⟩
      rw [List.getD_append_right _ _ _ _ (by simp)]
      have hj : j < 9 * xs.length := by
        simp only [List.length_cons, Nat.mul_succ] at hi; omega
      simp only [List.length_replicate, Nat.add_sub_cancel]
      rw [ih j hj, Nat.add_div_right j (by norm_num)]
      simp

/-! ### Arrays, the on-disk cache, and `__getitem__` -/

/-- One channel of a numpy array: dimensions plus pixel contents. -/
structure Arr where
  height : Nat
  width : Nat
  pix : Nat → Nat → ℚ

/-- Numpy slicing `a[y:y+w, x:x+w]`: the requested window, clamped to the
array bounds as Python slices are. -/
def cropArr (a : Arr) (y x w : Nat) : Arr :=
  { height := min (y + w) a.height - y
    width := min (x + w) a.width - x
    pix := fun r c => a.pix (y + r) (x + c) }

/-- `os.path.join(self.pickle_dir, f"{os.path.basename(image_name)}_image.npz")`. -/
def imageCachePath (pickleDir name : String) : String :=
  pickleDir ++ "/" ++ basename name ++ "_image.npz"

/-- `os.path.join(self.pickle_dir, f"{os.path.basename(image_name)}_label.npz")`. -/
def labelCachePath (pickleDir name : String) : String :=
  pickleDir ++ "/" ++ basename name ++ "_label.npz"

/-- The cache directory, as a partial map from paths to stored arrays. -/
def FS : Type := String → Option Arr

/-- The empty cache directory. -/
def emptyFS : FS := fun _ => none

/-- `np.savez_compressed(path, a)`. -/
def cacheWrite (fs : FS) (path : String) (a : Arr) : FS :=
  fun p => if p = path then some a else fs p

/-- The pre-caching loop of `XRayDataset.__init__` (lines 75-83): for each
`(image_name, label_name)` pair, if the image cache file does not exist,
create the data and save both the image and the label cache file.
`srcImg`/`srcLbl` stand for the two components `_create_data` builds from
the original PNG and JSON files. -/
def cachePopulate (pdir : String) (srcImg srcLbl : String → Arr) :
    FS → List (String × String) → FS
  | fs, [] => fs
  | fs, (imageName, labelName) :: rest =>
      let fs' :=
        if (fs (imageCachePath pdir imageName)).isSome then fs
        else cacheWrite (cacheWrite fs (imageCachePath pdir imageName) (srcImg imageName))
               (labelCachePath pdir imageName) (srcLbl labelName)
      cachePopulate pdir srcImg srcLbl fs' rest

/-- `window_size = (image.shape[0]) // 2`. -/
def windowSize (h : Nat) : Nat := h / 2

/-- `stride = window_size // 2`. -/
def strideOf (h : Nat) : Nat := windowSize h / 2

/-- `x = ((item % 9) % 3) * stride`. -/
def cropX (h item : Nat) : Nat := ((item % 9) % 3) * strideOf h

/-- `y = ((item % 9) // 3) * stride`. -/
def cropY (h item : Nat) : Nat := ((item % 9) / 3) * strideOf h

/-- `XRayDataset.__getitem__` for `transforms=None` and `use_pickle=True`:
look the image and label up in the cache by the basename of
`self.filenames[item]`, and with `SLIDING_WINDOW` crop both with the
window and offsets computed from the image height and `item % 9`.
The channel-first transpose and the tensor conversion do not change the
pixel contents and are omitted; a missing cache file (`np.load` raising)
is `none`.  `self.labelnames` is never consulted, so it is not an
argument. -/
def getItem (slidingWindow : Bool) (pdir : String) (fs : FS)
    (filenames : List String) (item : Nat) : Option (Arr × Arr) :=
  let imageName := filenames.getD item ""
  match fs (imageCachePath pdir imageName), fs (labelCachePath pdir imageName) with
  | some image, some label =>
      if slidingWindow then
        some (cropArr image (cropY image.height item) (cropX image.height item) (windowSize image.height),
              cropArr label (cropY image.height item) (cropX image.height item) (windowSize image.height))
      else some (image, label)
  | _, _ => none

theorem append_cancel_left2 {p x y s t : List Char}
    (h : (p ++ x) ++ s = (p ++ y) ++ t) : x ++ s = y ++ t := by
  have h' : p ++ (x ++ s) = p ++ (y ++ t) := by
    rw [← List.append_assoc, ← List.append_assoc]; exact h
  exact List.append_cancel_left h'

theorem mid_append_cancel {p x y s : List Char}
    (h : (p ++ x) ++ s = (p ++ y) ++ s) : x = y :=
  List.append_cancel_right (append_cancel_left2 h)

theorem append_image_ne_append_label (a b : List Char) :
    a ++ ("_image.npz".data) ≠ b ++ ("_label.npz".data) := by
  intro h
  have hlen : a.length + ("_image.npz".data).length
      = b.length + ("_label.npz".data).length := by
    simpa using congrArg List.length h
  have h1 : ("_image.npz".data).length = 10 := by decide
  have h2 : ("_label.npz".data).length = 10 := by decide
  have hab : a.length = b.length := by omega
  have := (List.append_inj h hab).2
  exact absurd this (by decide)

theorem imageCachePath_data (pdir name : String) :
    (imageCachePath pdir name).data
      = ((pdir.data ++ "/".data) ++ (basename name).data) ++ "_image.npz".data := by
  simp [imageCachePath, String.data_append, List.append_assoc]

theorem labelCachePath_data (pdir name : String) :
    (labelCachePath pdir name).data
      = ((pdir.data ++ "/".data) ++ (basename name).data) ++ "_label.npz".data := by
  simp [labelCachePath, String.data_append, List.append_assoc]

theorem imageCachePath_eq_iff (pdir n m : String) :
    imageCachePath pdir n = imageCachePath pdir m ↔ basename n = basename m := by
  constructor
  · intro h
    have hd := congrArg String.data h
    rw [imageCachePath_data, imageCachePath_data] at hd
    have hx : (basename n).data = (basename m).data := mid_append_cancel hd
    exact congrArg String.mk hx
  · intro h
    unfold imageCachePath
    rw [h]

theorem imageCachePath_ne_labelCachePath (pdir n m : String) :
    imageCachePath pdir n ≠ labelCachePath pdir m := by
  intro h
  have hd := congrArg String.data h
  rw [imageCachePath_data, labelCachePath_data] at hd
  exact append_image_ne_append_label _ _ (append_cancel_left2 hd)

/-- Writes never remove a file. -/
theorem cacheWrite_isSome (fs : FS) (q : String) (a : Arr) (p : String)
    (h : (fs p).isSome) : ((cacheWrite fs q a) p).isSome := by
  unfold cacheWrite
  by_cases hpq : p = q <;> simp [hpq, h]

/-- The pre-caching loop never removes a file. -/
theorem cachePopulate_isSome_mono (pdir : String) (si sl : String → Arr)
    (pairs : List (String × String)) (fs : FS) (p : String)
    (h : (fs p).isSome) :
    ((cachePopulate pdir si sl fs pairs) p).isSome := by
  induction pairs generalizing fs with
  | nil => exact h
  | cons hd tl ih =>
    obtain ⟨n, l⟩ := hd
    show ((cachePopulate pdir si sl _ tl) p).isSome
    apply ih
    by_cases hc : (fs (imageCachePath pdir n)).isSome
    · simpa [cachePopulate, hc] using h
    · simp only [hc, if_false, Bool.false_eq_true]
      exact cacheWrite_isSome _ _ _ _ (cacheWrite_isSome _ _ _ _ h)

/-- Every image cache file present has its label cache file present. -/
def pairedFS (pdir : String) (fs : FS) : Prop :=
  ∀ name, (fs (imageCachePath pdir name)).isSome →
    (fs (labelCachePath pdir name)).isSome

theorem pairedFS_empty (pdir : String) : pairedFS pdir emptyFS := by
  intro name h
  simp [emptyFS] at h

theorem pairedFS_write (pdir : String) (fs : FS) (hfs : pairedFS pdir fs)
    (n : String) (a b : Arr) :
    pairedFS pdir (cacheWrite (cacheWrite fs (imageCachePath pdir n) a)
      (labelCachePath pdir n) b) := by
  intro m him
  unfold cacheWrite at him ⊢
  by_cases h1 : labelCachePath pdir m = labelCachePath pdir n
  · simp [h1]
  · rw [if_neg h1]
    have h2 : labelCachePath pdir m ≠ imageCachePath pdir n :=
      fun h => imageCachePath_ne_labelCachePath pdir n m h.symm
    rw [if_neg h2]
    have h3 : imageCachePath pdir m ≠ labelCachePath pdir n :=
      imageCachePath_ne_labelCachePath pdir m n
    rw [if_neg h3] at him
    by_cases h4 : imageCachePath pdir m = imageCachePath pdir n
    · exfalso
      have : basename m = basename n := (imageCachePath_eq_iff pdir m n).mp h4
      exact h1 (by unfold labelCachePath; rw [this])
    · rw [if_neg h4] at him
      exact hfs m him

/-- After the pre-caching loop, both cache files of every processed
example exist. -/
theorem cachePopulate_mem_isSome (pdir : String) (si sl : String → Arr)
    (pairs : List (String × String)) (fs : FS) (hfs : pairedFS pdir fs)
    (p : String × String) (hp : p ∈ pairs) :
    ((cachePopulate pdir si sl fs pairs) (imageCachePath pdir p.1)).isSome ∧
    ((cachePopulate pdir si sl fs pairs) (labelCachePath pdir p.1)).isSome := by
  induction pairs generalizing fs with
  | nil => simp at hp
  | cons hd tl ih =>
    obtain ⟨n, l⟩ := hd
    rw [List.mem_cons] at hp
    by_cases hc : (fs (imageCachePath pdir n)).isSome
    · have hstep : cachePopulate pdir si sl fs ((n, l) :: tl)
          = cachePopulate pdir si sl fs tl := by
        simp [cachePopulate, hc]
      rw [hstep]
      rcases hp with rfl | hp
      · exact ⟨cachePopulate_isSome_mono _ _ _ _ _ _ hc,
          cachePopulate_isSome_mono _ _ _ _ _ _ (hfs n hc)⟩
      · exact ih fs hfs hp
    · have hstep : cachePopulate pdir si sl fs ((n, l) :: tl)
          = cachePopulate pdir si sl
              (cacheWrite (cacheWrite fs (imageCachePath pdir n) (si n))
                (labelCachePath pdir n) (sl l)) tl := by
        simp [cachePopulate, hc]
      rw [hstep]
      set fs' := cacheWrite (cacheWrite fs (imageCachePath pdir n) (si n))
        (labelCachePath pdir n) (sl l) with hfs'
      have hpair' : pairedFS pdir fs' := pairedFS_write pdir fs hfs n _ _
      rcases hp with rfl | hp
      · have h1 : (fs' (imageCachePath pdir n)).isSome := by
          rw [hfs']
          unfold cacheWrite
          rw [if_neg (imageCachePath_ne_labelCachePath pdir n n), if_pos rfl]
          rfl
        exact ⟨cachePopulate_isSome_mono _ _ _ _ _ _ h1,
          cachePopulate_isSome_mono _ _ _ _ _ _ (hpair' n h1)⟩
      · exact ih fs' hpair' hp

/-- 1-D coverage: with side `4*m`, the three windows of size `2*m` at
offsets `0, m, 2*m` cover every coordinate below `4*m`. -/
theorem band_cover (m r : Nat) (hr : r < 4 * m) :
    ∃ q, q < 3 ∧ q * m ≤ r ∧ r < q * m + 2 * m := by
  have hm : 0 < m := by omega
  obtain ⟨d, e, he, rfl⟩ : ∃ d e, e < m ∧ r = m * d + e :=
    ⟨r / m, r % m, Nat.mod_lt r hm, (Nat.div_add_mod r m).symm⟩
  have hd : d < 4 := by
    by_contra hd4
    push_neg at hd4
    have h4 : 4 * m ≤ m * d := by
      calc 4 * m = m * 4 := by ring
        _ ≤ m * d := Nat.mul_le_mul_left m hd4
    omega
  have hone : d = 0 ∨ d = 1 ∨ d = 2 ∨ d = 3 := by omega
  rcases hone with rfl | rfl | rfl | rfl
  · exact ⟨0, by omega, by omega, by omega⟩
  · exact ⟨1, by omega, by omega, by omega⟩
  · exact ⟨2, by omega, by omega, by omega⟩
  · exact ⟨2, by omega, by omega, by omega⟩

/-- C4: `XRayDataset.__init__` fails one of its two assertions if and only
if the set of extension-stripped PNG prefixes differs from the set of
extension-stripped JSON prefixes; when the prefix sets are equal both
assertions pass and construction proceeds. -/
theorem assertions_pass_iff_prefix_sets_eq (pngs jsons : Finset String) :
    assertionsPass pngs jsons ↔ fnPrefixSet pngs = fnPrefixSet jsons := by
  unfold assertionsPass
  rw [Finset.card_eq_zero, Finset.card_eq_zero, Finset.sdiff_eq_empty_iff_subset,
    Finset.sdiff_eq_empty_iff_subset]
  constructor
  · rintro ⟨h1, h2⟩
    exact le_antisymm h2 h1
  · rintro h
    exact ⟨h.ge, h.le⟩

/-- C8: after `__init__` with SLIDING_WINDOW on, `self.labelnames` equals
`self.filenames` element for element — the expansion builds both from the
image filename list, so `labelnames` holds PNG names; in the embedding
`getItem` takes no labelnames argument, reflecting that `__getitem__`
never reads `self.labelnames`. -/
theorem sliding_labelnames_eq_filenames (filenames labelnames : List String)
    (i : Nat) (hi : i < 9 * filenames.length) :
    (initNames true filenames labelnames).2 = (initNames true filenames labelnames).1 ∧
    (initNames true filenames labelnames).2.getD i ""
      = (initNames true filenames labelnames).1.getD i "" ∧
    (initNames true filenames labelnames).2.getD i "" = filenames.getD (i / 9) "" := by
  refine ⟨rfl, rfl, ?_⟩
  show (slidingExpand filenames).getD i "" = filenames.getD (i / 9) ""
  exact slidingExpand_getD filenames i hi

theorem sliding_labelnames_eq_filenames_witness :
    4 < 9 * (["a/x.png"] : List String).length ∧
    ((initNames true ["a/x.png"] ["a/x.json"]).2
        = (initNames true ["a/x.png"] ["a/x.json"]).1 ∧
      (initNames true ["a/x.png"] ["a/x.json"]).2.getD 4 ""
        = (initNames true ["a/x.png"] ["a/x.json"]).1.getD 4 "" ∧
      (initNames true ["a/x.png"] ["a/x.json"]).2.getD 4 ""
        = (["a/x.png"] : List String).getD (4 / 9) "") :=
  ⟨by decide, sliding_labelnames_eq_filenames ["a/x.png"] ["a/x.json"] 4 (by decide)⟩

/-- C3: starting from a cache directory with no cache files, the
pre-caching loop of `__init__` creates both `<basename>_image.npz` and
`<basename>_label.npz` for every selected example, and `__getitem__`
loads the image and label from exactly those two files: its result is
determined by the cache contents at those two paths alone. -/
theorem cache_created_and_getitem_reads_cache
    (pdir : String) (srcImg srcLbl : String → Arr)
    (pairs : List (String × String)) (p : String × String) (hp : p ∈ pairs)
    (sw : Bool) (fns : List String) (item : Nat) (fs fs' : FS)
    (him : fs (imageCachePath pdir (fns.getD item ""))
         = fs' (imageCachePath pdir (fns.getD item "")))
    (hlb : fs (labelCachePath pdir (fns.getD item ""))
         = fs' (labelCachePath pdir (fns.getD item ""))) :
    ((cachePopulate pdir srcImg srcLbl emptyFS pairs) (imageCachePath pdir p.1)).isSome ∧
    ((cachePopulate pdir srcImg srcLbl emptyFS pairs) (labelCachePath pdir p.1)).isSome ∧
    getItem sw pdir fs fns item = getItem sw pdir fs' fns item := by
  obtain ⟨h1, h2⟩ :=
    cachePopulate_mem_isSome pdir srcImg srcLbl pairs emptyFS (pairedFS_empty pdir) p hp
  refine ⟨h1, h2, ?_⟩
  simp only [getItem]
  rw [him, hlb]

theorem cache_created_and_getitem_reads_cache_witness :
    (("a/x.png", "a/x.json") ∈ [("a/x.png", "a/x.json")] ∧
      emptyFS (imageCachePath "pd" ((["a/x.png"] : List String).getD 0 ""))
        = emptyFS (imageCachePath "pd" ((["a/x.png"] : List String).getD 0 "")) ∧
      emptyFS (labelCachePath "pd" ((["a/x.png"] : List String).getD 0 ""))
        = emptyFS (labelCachePath "pd" ((["a/x.png"] : List String).getD 0 ""))) ∧
    (((cachePopulate "pd" (fun _ => ⟨4, 4, fun _ _ => 0⟩) (fun _ => ⟨4, 4, fun _ _ => 0⟩)
          emptyFS [("a/x.png", "a/x.json")]) (imageCachePath "pd" "a/x.png")).isSome ∧
      ((cachePopulate "pd" (fun _ => ⟨4, 4, fun _ _ => 0⟩) (fun _ => ⟨4, 4, fun _ _ => 0⟩)
          emptyFS [("a/x.png", "a/x.json")]) (labelCachePath "pd" "a/x.png")).isSome ∧
      getItem false "pd" emptyFS ["a/x.png"] 0 = getItem false "pd" emptyFS ["a/x.png"] 0) :=
  ⟨⟨by simp, rfl, rfl⟩,
    cache_created_and_getitem_reads_cache "pd" (fun _ => ⟨4, 4, fun _ _ => 0⟩)
      (fun _ => ⟨4, 4, fun _ _ => 0⟩) [("a/x.png", "a/x.json")] ("a/x.png", "a/x.json")
      (by simp) false ["a/x.png"] 0 emptyFS emptyFS rfl rfl⟩

theorem getItem_true (pdir : String) (fs : FS) (fns : List String) (item : Nat) :
    getItem true pdir fs fns item
      = match fs (imageCachePath pdir (fns.getD item "")),
          fs (labelCachePath pdir (fns.getD item "")) with
        | some image, some label =>
            some (cropArr image (cropY image.height item) (cropX image.height item)
                    (windowSize image.height),
                  cropArr label (cropY image.height item) (cropX image.height item)
                    (windowSize image.height))
        | _, _ => none := rfl

theorem getItem_false (pdir : String) (fs : FS) (fns : List String) (item : Nat) :
    getItem false pdir fs fns item
      = match fs (imageCachePath pdir (fns.getD item "")),
          fs (labelCachePath pdir (fns.getD item "")) with
        | some image, some label => some (image, label)
        | _, _ => none := rfl

/-- C10: two indices whose filenames share a basename (even with different
directory parts) and, under SLIDING_WINDOW, agree mod 9, read the same
cache files and return equal image and label data: the directory component
has no influence on what `__getitem__` loads. -/
theorem getitem_ignores_directory (sw : Bool) (pdir : String) (fs : FS)
    (fns : List String) (i j : Nat)
    (hb : basename (fns.getD i "") = basename (fns.getD j ""))
    (hm : sw = true → i % 9 = j % 9) :
    getItem sw pdir fs fns i = getItem sw pdir fs fns j := by
  have hip : imageCachePath pdir (fns.getD i "")
      = imageCachePath pdir (fns.getD j "") := by
    unfold imageCachePath; rw [hb]
  have hlp : labelCachePath pdir (fns.getD i "")
      = labelCachePath pdir (fns.getD j "") := by
    unfold labelCachePath; rw [hb]
  cases sw with
  | false => rw [getItem_false, getItem_false, hip, hlp]
  | true =>
    have h9 := hm rfl
    simp only [getItem, hip, hlp, cropX, cropY, h9]

theorem getitem_ignores_directory_witness :
    (basename ((["a/x.png", "p1", "p2", "p3", "p4", "p5", "p6", "p7", "p8",
        "b/x.png"] : List String).getD 0 "")
      = basename ((["a/x.png", "p1", "p2", "p3", "p4", "p5", "p6", "p7", "p8",
        "b/x.png"] : List String).getD 9 "") ∧
      (true = true → 0 % 9 = 9 % 9)) ∧
    getItem true "pd" emptyFS
        ["a/x.png", "p1", "p2", "p3", "p4", "p5", "p6", "p7", "p8", "b/x.png"] 0
      = getItem true "pd" emptyFS
        ["a/x.png", "p1", "p2", "p3", "p4", "p5", "p6", "p7", "p8", "b/x.png"] 9 :=
  ⟨⟨by decide, by decide⟩,
    getitem_ignores_directory true "pd" emptyFS
      ["a/x.png", "p1", "p2", "p3", "p4", "p5", "p6", "p7", "p8", "b/x.png"] 0 9
      (by decide) (by decide)⟩

/-- C1: with SLIDING_WINDOW enabled the dataset has length 9 times the
number of selected base images; `__getitem__(i)` returns the crop of the
image of `filenames[i]` with `window_size = H // 2`,
`stride = window_size // 2`, at offsets `x = ((i % 9) % 3) * stride` and
`y = ((i % 9) // 3) * stride`; for a square image whose side `H` is
divisible by 4, every crop lies fully inside the image and the nine crops
jointly cover every pixel, reconstructing the full image. -/
theorem sliding_window_getitem
    (base lns : List String) (pdir : String) (fs : FS)
    (item : Nat) (img lbl : Arr) (H m : Nat)
    (hitem : item < 9 * base.length)
    (hfsi : fs (imageCachePath pdir ((initNames true base lns).1.getD item ""))
      = some img)
    (hfsl : fs (labelCachePath pdir ((initNames true base lns).1.getD item ""))
      = some lbl)
    (hh : img.height = H) (hw : img.width = H) (hH : H = 4 * m) :
    (initNames true base lns).1.length = 9 * base.length ∧
    (initNames true base lns).1.getD item "" = base.getD (item / 9) "" ∧
    windowSize H = H / 2 ∧
    strideOf H = windowSize H / 2 ∧
    cropX H item = ((item % 9) % 3) * strideOf H ∧
    cropY H item = ((item % 9) / 3) * strideOf H ∧
    getItem true pdir fs (initNames true base lns).1 item
      = some (cropArr img (cropY H item) (cropX H item) (windowSize H),
              cropArr lbl (cropY H item) (cropX H item) (windowSize H)) ∧
    (∀ k, k < 9 →
      cropY H k + windowSize H ≤ H ∧ cropX H k + windowSize H ≤ H ∧
      (cropArr img (cropY H k) (cropX H k) (windowSize H)).height = windowSize H ∧
      (cropArr img (cropY H k) (cropX H k) (windowSize H)).width = windowSize H) ∧
    (∀ r c, r < H → c < H → ∃ k, k < 9 ∧
      cropY H k ≤ r ∧ r - cropY H k < windowSize H ∧
      cropX H k ≤ c ∧ c - cropX H k < windowSize H ∧
      (cropArr img (cropY H k) (cropX H k) (windowSize H)).pix
          (r - cropY H k) (c - cropX H k)
        = img.pix r c) := by
  have hws : windowSize H = 2 * m := by unfold windowSize; omega
  have hst : strideOf H = m := by unfold strideOf windowSize; omega
  refine ⟨slidingExpand_length base, slidingExpand_getD base item hitem,
    rfl, rfl, rfl, rfl, ?_, ?_, ?_⟩
  · rw [getItem_true, hfsi, hfsl]
    dsimp only
    rw [hh]
  · intro k hk
    have hy : cropY H k = (k / 3) * m := by
      unfold cropY; rw [hst, Nat.mod_eq_of_lt hk]
    have hx : cropX H k = (k % 3) * m := by
      unfold cropX; rw [hst, Nat.mod_eq_of_lt hk]
    have hy2 : k / 3 ≤ 2 := by omega
    have hx2 : k % 3 ≤ 2 := by omega
    have hyb : cropY H k ≤ 2 * m := by
      rw [hy]; exact Nat.mul_le_mul_right m hy2
    have hxb : cropX H k ≤ 2 * m := by
      rw [hx]; exact Nat.mul_le_mul_right m hx2
    refine ⟨by omega, by omega, ?_, ?_⟩
    · show min (cropY H k + windowSize H) img.height - cropY H k = windowSize H
      rw [hh]; omega
    · show min (cropX H k + windowSize H) img.width - cropX H k = windowSize H
      rw [hw]; omega
  · intro r c hr hc
    obtain ⟨qr, hqr3, hqr1, hqr2⟩ := band_cover m r (by omega)
    obtain ⟨qc, hqc3, hqc1, hqc2⟩ := band_cover m c (by omega)
    have hk9 : qc + 3 * qr < 9 := by omega
    have hmod9 : (qc + 3 * qr) % 9 = qc + 3 * qr := Nat.mod_eq_of_lt hk9
    have hdiv : (qc + 3 * qr) / 3 = qr := by omega
    have hmod3 : (qc + 3 * qr) % 3 = qc := by omega
    have hy : cropY H (qc + 3 * qr) = qr * m := by
      unfold cropY; rw [hst, hmod9, hdiv]
    have hx : cropX H (qc + 3 * qr) = qc * m := by
      unfold cropX; rw [hst, hmod9, hmod3]
    have hyler : cropY H (qc + 3 * qr) ≤ r := by rw [hy]; exact hqr1
    have hxlec : cropX H (qc + 3 * qr) ≤ c := by rw [hx]; exact hqc1
    refine ⟨qc + 3 * qr, hk9, hyler, ?_, hxlec, ?_, ?_⟩
    · rw [hy, hws]; omega
    · rw [hx, hws]; omega
    · show img.pix (cropY H (qc + 3 * qr) + (r - cropY H (qc + 3 * qr)))
          (cropX H (qc + 3 * qr) + (c - cropX H (qc + 3 * qr))) = img.pix r c
      rw [Nat.add_sub_cancel' hyler, Nat.add_sub_cancel' hxlec]

theorem sliding_window_getitem_witness :
    5 < 9 * (["a/x.png"] : List String).length ∧
    (initNames true ["a/x.png"] ["a/x.json"]).1.length
      = 9 * (["a/x.png"] : List String).length :=
  ⟨by decide,
    (sliding_window_getitem ["a/x.png"] ["a/x.json"] "pd"
      (fun p => if p = imageCachePath "pd" "a/x.png" then some ⟨4, 4, fun _ _ => 0⟩
        else if p = labelCachePath "pd" "a/x.png" then some ⟨4, 4, fun _ _ => 0⟩
        else none)
      5 ⟨4, 4, fun _ _ => 0⟩ ⟨4, 4, fun _ _ => 0⟩ 4 1
      (by decide) rfl rfl rfl rfl rfl).1⟩

/-! ### The training epoch loop (`train`, `src/train.py` lines 126-160) -/

/-- `accumulation_steps`: `config.TRAIN.ACCUMULATION_STEPS` when the
configuration has that attribute, else 1. -/
def accumulationSteps (cfg : Option Nat) : Nat := cfg.getD 1

/-- Backpropagation/optimizer state across one epoch: the gradient
accumulated since the last `zero_grad` (sum of all values passed to
`backward` since then), the batch indices at which `optimizer.step()` ran
with the gradient applied there, and the batch indices at which
`optimizer.zero_grad()` ran inside the batch loop. -/
structure LoopState where
  grad : ℚ
  steps : List (Nat × ℚ)
  zeros : List Nat

/-- The body of the batch loop (`train`, lines 142-160).  FP16 divides the
loss by `accumulation_steps` before `backward` and steps/zeroes when
`(step+1) % accumulation_steps == 0` or the batch is the epoch's last
(`scaler`'s internal scale factor cancels in `scaler.step` and is
omitted); FP32 backpropagates the raw loss and steps after every batch,
never zeroing. -/
def trainBatch (fp16 : Bool) (k n : Nat) (st : LoopState) (step : Nat) (loss : ℚ) :
    LoopState :=
  if fp16 then
    let g := st.grad + loss / k
    if (step + 1) % k = 0 ∨ step + 1 = n then
      { grad := 0, steps := st.steps ++ [(step, g)], zeros := st.zeros ++ [step] }
    else { st with grad := g }
  else
    let g := st.grad + loss
    { st with grad := g, steps := st.steps ++ [(step, g)] }

/-- The batch loop from batch index `step` onwards. -/
def runBatches (fp16 : Bool) (k n : Nat) : Nat → LoopState → List ℚ → LoopState
  | _, st, [] => st
  | step, st, loss :: rest =>
      runBatches fp16 k n (step + 1) (trainBatch fp16 k n st step loss) rest

/-- One training epoch over the batch losses: `optimizer.zero_grad()` runs
once before the loop (line 136, initial gradient 0), then the batch
loop. -/
def runEpoch (fp16 : Bool) (k : Nat) (losses : List ℚ) : LoopState :=
  runBatches fp16 k losses.length 0 ⟨0, [], []⟩ losses

theorem runBatches_true_spec (k n : Nat) (hk : 0 < k) (losses : List ℚ)
    (step : Nat) (st : LoopState) :
    ((runBatches true k n step st losses).steps.map Prod.fst
      = st.steps.map Prod.fst
        ++ (List.range' step losses.length).filter
            (fun s => (s + 1) % k = 0 ∨ s + 1 = n)) ∧
    ((runBatches true k n step st losses).zeros
      = st.zeros
        ++ (List.range' step losses.length).filter
            (fun s => (s + 1) % k = 0 ∨ s + 1 = n)) ∧
    (((runBatches true k n step st losses).steps.map Prod.snd).sum
        + (runBatches true k n step st losses).grad
      = (st.steps.map Prod.snd).sum + st.grad + losses.sum / k) := by
  induction losses generalizing step st with
  | nil => simp [runBatches]
  | cons l rest ih =>
    have hkQ : (k : ℚ) ≠ 0 := by
      exact_mod_cast Nat.pos_iff_ne_zero.mp hk
    simp only [runBatches, List.length_cons, List.sum_cons]
    obtain ⟨ih1, ih2, ih3⟩ := ih (step + 1) (trainBatch true k n st step l)
    rw [List.range'_succ, List.filter_cons]
    by_cases hc : (step + 1) % k = 0 ∨ step + 1 = n
    · have hb : trainBatch true k n st step l
          = { grad := 0, steps := st.steps ++ [(step, st.grad + l / k)],
              zeros := st.zeros ++ [step] } := by
        simp [trainBatch, hc]
      have hdec : decide ((step + 1) % k = 0 ∨ step + 1 = n) = true := by
        simpa using hc
      rw [hdec]
      refine ⟨?_, ?_, ?_⟩
      · rw [ih1, hb]; simp
      · rw [ih2, hb]; simp
      · rw [ih3, hb]
        simp only [List.map_append, List.sum_append, List.map_cons, List.sum_cons,
          List.map_nil, List.sum_nil]
        field_simp
        ring
    · have hb : trainBatch true k n st step l = { st with grad := st.grad + l / k } := by
        simp [trainBatch, hc]
      have hdec : decide ((step + 1) % k = 0 ∨ step + 1 = n) = false := by
        simpa using hc
      rw [hdec]
      refine ⟨?_, ?_, ?_⟩
      · rw [ih1, hb]
        simp
      · rw [ih2, hb]
        simp
      · rw [ih3, hb]
        field_simp
        ring

/-- The FP32 branch does not mention `accumulation_steps` or the batch
count. -/
theorem runBatches_false_ignores (k k' n n' : Nat) (losses : List ℚ)
    (step : Nat) (st : LoopState) :
    runBatches false k n step st losses = runBatches false k' n' step st losses := by
  induction losses generalizing step st with
  | nil => rfl
  | cons l rest ih =>
    show runBatches false k n (step + 1) (trainBatch false k n st step l) rest
        = runBatches false k' n' (step + 1) (trainBatch false k' n' st step l) rest
    rw [ih]
    rfl

theorem runBatches_false_spec (k n : Nat) (losses : List ℚ)
    (step : Nat) (st : LoopState) :
    ((runBatches false k n step st losses).steps
      = st.steps ++ (List.range losses.length).map
          (fun i => (step + i, st.grad + (losses.take (i + 1)).sum))) ∧
    (runBatches false k n step st losses).zeros = st.zeros ∧
    (runBatches false k n step st losses).grad = st.grad + losses.sum := by
  induction losses generalizing step st with
  | nil => simp [runBatches]
  | cons l rest ih =>
    simp only [runBatches, List.length_cons, List.sum_cons]
    have hb : trainBatch false k n st step l
        = { st with grad := st.grad + l, steps := st.steps ++ [(step, st.grad + l)] } := by
      simp [trainBatch]
    obtain ⟨ih1, ih2, ih3⟩ := ih (step + 1) (trainBatch false k n st step l)
    refine ⟨?_, ?_, ?_⟩
    · rw [ih1, hb]
      dsimp only
      rw [List.append_assoc]
      congr 1
      rw [List.range_succ_eq_map, List.map_cons, List.singleton_append, List.map_map]
      congr 1
      · simp
      · apply List.map_congr_left
        intro i _
        simp only [Function.comp_apply, List.take_succ_cons, List.sum_cons, Prod.mk.injEq]
        exact ⟨by omega, by ring⟩
    · rw [ih2, hb]
    · rw [ih3, hb]
      dsimp only
      ring

/-- C5: with FP16 enabled and `ACCUMULATION_STEPS = k`, every batch loss
is scaled by `1/k` before backpropagation (so the applied gradients plus
the leftover gradient sum to the scaled total loss), and an optimizer step
followed by `zero_grad` happens exactly on batches where
`(step+1) % k == 0` or the batch is the epoch's last; an absent
`ACCUMULATION_STEPS` defaults to `k = 1`, a step after every batch. -/
theorem fp16_accumulation_schedule (losses : List ℚ) (k : Nat) (hk : 0 < k) :
    ((runEpoch true k losses).steps.map Prod.fst
      = (List.range losses.length).filter
          (fun s => (s + 1) % k = 0 ∨ s + 1 = losses.length)) ∧
    ((runEpoch true k losses).zeros
      = (List.range losses.length).filter
          (fun s => (s + 1) % k = 0 ∨ s + 1 = losses.length)) ∧
    (((runEpoch true k losses).steps.map Prod.snd).sum + (runEpoch true k losses).grad
      = losses.sum / k) ∧
    accumulationSteps none = 1 ∧
    ((runEpoch true (accumulationSteps none) losses).steps.map Prod.fst
      = List.range losses.length) := by
  obtain ⟨h1, h2, h3⟩ := runBatches_true_spec k losses.length hk losses 0 ⟨0, [], []⟩
  refine ⟨?_, ?_, ?_, rfl, ?_⟩
  · rw [show runEpoch true k losses
      = runBatches true k losses.length 0 ⟨0, [], []⟩ losses from rfl, h1]
    simp [List.range_eq_range']
  · rw [show runEpoch true k losses
      = runBatches true k losses.length 0 ⟨0, [], []⟩ losses from rfl, h2]
    simp [List.range_eq_range']
  · rw [show runEpoch true k losses
      = runBatches true k losses.length 0 ⟨0, [], []⟩ losses from rfl] at *
    simpa using h3
  · obtain ⟨g1, _, _⟩ :=
      runBatches_true_spec 1 losses.length (by norm_num) losses 0 ⟨0, [], []⟩
    rw [show runEpoch true (accumulationSteps none) losses
      = runBatches true 1 losses.length 0 ⟨0, [], []⟩ losses from rfl, g1]
    rw [List.filter_eq_self.mpr]
    · simp [List.range_eq_range']
    · intro a _
      simp [Nat.mod_one]

theorem fp16_accumulation_schedule_witness :
    0 < 2 ∧
    ((runEpoch true 2 [1, 2, 3]).steps.map Prod.fst
      = (List.range ([1, 2, 3] : List ℚ).length).filter
          (fun s => (s + 1) % 2 = 0 ∨ s + 1 = ([1, 2, 3] : List ℚ).length)) :=
  ⟨by decide, (fp16_accumulation_schedule [1, 2, 3] 2 (by decide)).1⟩

/-- C9: with FP16 disabled the loop performs an optimizer step after every
single batch, the run is identical for any configured
`ACCUMULATION_STEPS` (the loss is not divided by it), and gradients are
zeroed only once at the epoch start, never inside the loop: the gradient
applied at batch `i` is the accumulated sum of the first `i+1` raw
losses. -/
theorem fp32_step_every_batch (losses : List ℚ) (k k' : Nat) :
    runEpoch false k losses = runEpoch false k' losses ∧
    ((runEpoch false k losses).steps
      = (List.range losses.length).map (fun i => (i, (losses.take (i + 1)).sum))) ∧
    ((runEpoch false k losses).steps.map Prod.fst = List.range losses.length) ∧
    (runEpoch false k losses).zeros = [] := by
  obtain ⟨h1, h2, h3⟩ := runBatches_false_spec k losses.length losses 0 ⟨0, [], []⟩
  have hrun : runEpoch false k losses
      = runBatches false k losses.length 0 ⟨0, [], []⟩ losses := rfl
  have hsteps : (runEpoch false k losses).steps
      = (List.range losses.length).map (fun i => (i, (losses.take (i + 1)).sum)) := by
    rw [hrun, h1]
    simp
  refine ⟨runBatches_false_ignores k k' losses.length losses.length losses 0 _,
    hsteps, ?_, by rw [hrun, h2]⟩
  rw [hsteps, List.map_map]
  exact List.map_id _

/-! ### Best-dice tracking across validation epochs
(`train`, `src/train.py` lines 113-114, 183-197) -/

/-- The best-model bookkeeping of `train`: `best_dice`,
`best_dice_epoch`, `best_rles`, plus the validation epochs at which
`save_model` (and the `best_rles` update, in the same branch) ran. -/
structure BestState (R : Type) where
  bestDice : ℚ
  bestEpoch : Nat
  bestRles : Option R
  saved : List Nat

/-- `train`'s reaction to one validation result (lines 188-194):
`if best_dice < dice`, record dice, epoch and rles, and save the model. -/
def valUpdate {R : Type} (st : BestState R) (epoch : Nat) (dice : ℚ) (rles : R) :
    BestState R :=
  if st.bestDice < dice then
    { bestDice := dice, bestEpoch := epoch, bestRles := some rles,
      saved := st.saved ++ [epoch] }
  else st

/-- Process the validation results in epoch order; the entry at position
`i` of the list carries validation epoch number `e0 + i`. -/
def runValidations {R : Type} (e0 : Nat) (st : BestState R) :
    List (ℚ × R) → BestState R
  | [] => st
  | (d, r) :: rest => runValidations (e0 + 1) (valUpdate st e0 d r) rest

/-- The initial state: `best_dice, best_dice_epoch = 0., 0.` and
`best_rles = None` (line 113-114). -/
def initBest (R : Type) : BestState R := ⟨0, 0, none, []⟩

/-- `if best_rles: save_csv(config, best_rles, epoch=best_dice_epoch)`
at the end of `train` (lines 196-197). -/
def finalCsv {R : Type} (st : BestState R) : Option (R × Nat) :=
  match st.bestRles with
  | some r => some (r, st.bestEpoch)
  | none => none

/-- Modelled from the spec: `dice_coef` (`utils/metrics.py`) is not under
src/; the glossary describes it as "Dice coefficient: overlap metric
between predicted and ground-truth masks, used as the validation score" —
on binary masks, `2|P ∩ G| / (|P| + |G|)` (0 when both masks are
empty). -/
def diceCoef (pred gt : List Bool) : ℚ :=
  2 * (((pred.zip gt).filter (fun p => p.1 && p.2)).length : ℚ)
    / (((pred.filter (fun b => b)).length : ℚ)
        + ((gt.filter (fun b => b)).length : ℚ))

/-- `torch.mean` of a vector. -/
def meanQ (l : List ℚ) : ℚ := l.sum / l.length

/-- `dices_per_class = torch.mean(torch.cat(dices, 0), 0)` (`validation`,
lines 83-84): the per-batch dice matrices (one row of per-class dice
scores per validation image) are concatenated along dim 0, then averaged
over all images, class by class. -/
def dicesPerClass (cls : Nat) (batches : List (List (List ℚ))) : List ℚ :=
  (List.range cls).map (fun c => meanQ (batches.flatten.map (fun r => r.getD c 0)))

/-- `avg_dice = torch.mean(dices_per_class).item()` (`validation`,
line 95): the mean over classes of the per-class mean dice. -/
def avgDice (cls : Nat) (batches : List (List (List ℚ))) : ℚ :=
  meanQ (dicesPerClass cls batches)

/-- The validation results a training run feeds to the best-dice
bookkeeping: epoch `i`'s tracked dice is `avgDice` of its per-batch dice
matrices, paired with that epoch's `result_rles`. -/
def valSequence {R : Type} (cls : Nat)
    (epochs : List (List (List (List ℚ)) × R)) : List (ℚ × R) :=
  epochs.map (fun p => (avgDice cls p.1, p.2))

/-- The relative indices of the validation results that strictly improve
on the running best, labelled from `e`. -/
def recordIdxs {R : Type} (b : ℚ) (e : Nat) : List (ℚ × R) → List Nat
  | [] => []
  | (d, _) :: rest =>
      if b < d then e :: recordIdxs d (e + 1) rest else recordIdxs b (e + 1) rest

/-- The last strict improvement over `b`: its index and its entry. -/
def champion {R : Type} (b : ℚ) : List (ℚ × R) → Option (Nat × (ℚ × R))
  | [] => none
  | (d, r) :: rest =>
      if b < d then
        match champion d rest with
        | none => some (0, (d, r))
        | some (k, p) => some (k + 1, p)
      else
        (champion b rest).map (fun q => (q.1 + 1, q.2))

theorem valUpdate_bestDice {R : Type} (st : BestState R) (e : Nat) (d : ℚ) (r : R) :
    (valUpdate st e d r).bestDice = max st.bestDice d := by
  unfold valUpdate
  rcases lt_or_ge st.bestDice d with h | h
  · rw [if_pos h, max_eq_right h.le]
  · rw [if_neg (not_lt.mpr h), max_eq_left h]

theorem runValidations_bestDice {R : Type} (l : List (ℚ × R)) (e0 : Nat)
    (st : BestState R) :
    (runValidations e0 st l).bestDice
      = l.foldl (fun b p => max b p.1) st.bestDice := by
  induction l generalizing e0 st with
  | nil => rfl
  | cons p rest ih =>
    obtain ⟨d, r⟩ := p
    show (runValidations (e0 + 1) (valUpdate st e0 d r) rest).bestDice = _
    rw [ih, List.foldl_cons, valUpdate_bestDice]

theorem le_foldl_max {R : Type} (l : List (ℚ × R)) (b : ℚ) :
    b ≤ l.foldl (fun acc p => max acc p.1) b := by
  induction l generalizing b with
  | nil => exact le_refl b
  | cons p rest ih =>
    exact le_trans (le_max_left b p.1) (ih (max b p.1))

theorem foldl_max_lt_iff {R : Type} (l : List (ℚ × R)) (b y : ℚ) :
    l.foldl (fun acc p => max acc p.1) b < y ↔ b < y ∧ ∀ p ∈ l, p.1 < y := by
  induction l generalizing b with
  | nil => simp
  | cons p rest ih =>
    rw [List.foldl_cons, ih, max_lt_iff]
    constructor
    · rintro ⟨⟨h1, h2⟩, h3⟩
      exact ⟨h1, by simpa using And.intro h2 h3⟩
    · rintro ⟨h1, h⟩
      have h2 := h p (by simp)
      exact ⟨⟨h1, h2⟩, fun q hq => h q (by simp [hq])⟩

theorem runValidations_saved {R : Type} (l : List (ℚ × R)) (e0 : Nat)
    (st : BestState R) :
    (runValidations e0 st l).saved = st.saved ++ recordIdxs st.bestDice e0 l := by
  induction l generalizing e0 st with
  | nil => simp [runValidations, recordIdxs]
  | cons p rest ih =>
    obtain ⟨d, r⟩ := p
    have hrec : recordIdxs st.bestDice e0 ((d, r) :: rest)
        = if st.bestDice < d then e0 :: recordIdxs d (e0 + 1) rest
          else recordIdxs st.bestDice (e0 + 1) rest := rfl
    show (runValidations (e0 + 1) (valUpdate st e0 d r) rest).saved = _
    rw [ih, hrec]
    unfold valUpdate
    by_cases h : st.bestDice < d
    · rw [if_pos h, if_pos h]
      simp
    · rw [if_neg h, if_neg h]

theorem recordIdxs_mem_lb {R : Type} (l : List (ℚ × R)) (b : ℚ) (e t : Nat)
    (h : t ∈ recordIdxs b e l) : e ≤ t := by
  induction l generalizing b e with
  | nil => simp [recordIdxs] at h
  | cons p rest ih =>
    obtain ⟨d, r⟩ := p
    unfold recordIdxs at h
    by_cases hb : b < d
    · rw [if_pos hb] at h
      rcases List.mem_cons.mp h with rfl | h
      · exact le_refl t
      · exact le_trans (Nat.le_succ e) (ih d (e + 1) h)
    · rw [if_neg hb] at h
      exact le_trans (Nat.le_succ e) (ih b (e + 1) h)

theorem recordIdxs_mem_iff {R : Type} (l : List (ℚ × R)) (b : ℚ) (e t : Nat)
    (ht : t < l.length) :
    (e + t ∈ recordIdxs b e l) ↔
      (l.take t).foldl (fun acc p => max acc p.1) b < (l.map Prod.fst).getD t 0 := by
  induction l generalizing b e t with
  | nil => simp at ht
  | cons p rest ih =>
    obtain ⟨d, r⟩ := p
    unfold recordIdxs
    cases t with
    | zero =>
      simp only [Nat.add_zero, List.take_zero, List.foldl_nil, List.map_cons,
        List.getD_cons_zero]
      by_cases hb : b < d
      · rw [if_pos hb]
        simp [hb]
      · rw [if_neg hb]
        constructor
        · intro h
          exact absurd (recordIdxs_mem_lb rest b (e + 1) e h) (by omega)
        · intro h
          exact absurd h hb
    | succ s =>
      have hs : s < rest.length := by simpa using ht
      have harith : e + (s + 1) = (e + 1) + s := by omega
      simp only [List.take_succ_cons, List.foldl_cons, List.map_cons,
        List.getD_cons_succ]
      by_cases hb : b < d
      · rw [if_pos hb, max_eq_right hb.le]
        rw [List.mem_cons]
        constructor
        · rintro (h | h)
          · omega
          · rw [harith] at h
            exact (ih d (e + 1) s hs).mp h
        · intro h
          right
          rw [harith]
          exact (ih d (e + 1) s hs).mpr h
      · rw [if_neg hb, max_eq_left (not_lt.mp hb), harith]
        exact ih b (e + 1) s hs

theorem runValidations_best {R : Type} (l : List (ℚ × R)) (e0 : Nat)
    (st : BestState R) :
    ((runValidations e0 st l).bestRles
      = match champion st.bestDice l with
        | none => st.bestRles
        | some (_, p) => some p.2) ∧
    ((runValidations e0 st l).bestEpoch
      = match champion st.bestDice l with
        | none => st.bestEpoch
        | some (k, _) => e0 + k) := by
  induction l generalizing e0 st with
  | nil => exact ⟨rfl, rfl⟩
  | cons p rest ih =>
    obtain ⟨d, r⟩ := p
    have hch : champion st.bestDice ((d, r) :: rest)
        = if st.bestDice < d then
            match champion d rest with
            | none => some (0, (d, r))
            | some (k, q) => some (k + 1, q)
          else (champion st.bestDice rest).map (fun q => (q.1 + 1, q.2)) := rfl
    obtain ⟨ih1, ih2⟩ := ih (e0 + 1) (valUpdate st e0 d r)
    by_cases h : st.bestDice < d
    · have hbd : (valUpdate st e0 d r).bestDice = d := by
        unfold valUpdate; rw [if_pos h]
      have hbe : (valUpdate st e0 d r).bestEpoch = e0 := by
        unfold valUpdate; rw [if_pos h]
      have hbr : (valUpdate st e0 d r).bestRles = some r := by
        unfold valUpdate; rw [if_pos h]
      constructor
      · show (runValidations (e0 + 1) (valUpdate st e0 d r) rest).bestRles = _
        rw [ih1, hch, hbd, hbr, if_pos h]
        cases champion d rest with
        | none => rfl
        | some q => rfl
      · show (runValidations (e0 + 1) (valUpdate st e0 d r) rest).bestEpoch = _
        rw [ih2, hch, hbd, hbe, if_pos h]
        cases champion d rest with
        | none => rfl
        | some q =>
          obtain ⟨k, q2⟩ := q
          show e0 + 1 + k = e0 + (k + 1)
          omega
    · have hst : valUpdate st e0 d r = st := by
        unfold valUpdate; rw [if_neg h]
      constructor
      · show (runValidations (e0 + 1) (valUpdate st e0 d r) rest).bestRles = _
        rw [ih1, hch, hst, if_neg h]
        cases champion st.bestDice rest with
        | none => rfl
        | some q => rfl
      · show (runValidations (e0 + 1) (valUpdate st e0 d r) rest).bestEpoch = _
        rw [ih2, hch, hst, if_neg h]
        cases champion st.bestDice rest with
        | none => rfl
        | some q =>
          obtain ⟨k, q2⟩ := q
          show e0 + 1 + k = e0 + (k + 1)
          omega

theorem champion_none {R : Type} (l : List (ℚ × R)) (b : ℚ)
    (h : ∀ p ∈ l, p.1 ≤ b) : champion b l = none := by
  induction l generalizing b with
  | nil => rfl
  | cons p rest ih =>
    obtain ⟨d, r⟩ := p
    have hd : ¬ b < d := not_lt.mpr (h (d, r) (by simp))
    have hch : champion b ((d, r) :: rest)
        = (champion b rest).map (fun q => (q.1 + 1, q.2)) := by
      show (if b < d then _ else _) = _
      rw [if_neg hd]
    rw [hch, ih b (fun q hq => h q (by simp [hq]))]
    rfl

theorem champion_first_argmax {R : Type} (l : List (ℚ × R)) (b : ℚ) (t : Nat)
    (ht : t < l.length)
    (hfirst : ∀ s, s < t → (l.map Prod.fst).getD s 0 < (l.map Prod.fst).getD t 0)
    (hmax : ∀ s, t < s → s < l.length →
      (l.map Prod.fst).getD s 0 ≤ (l.map Prod.fst).getD t 0)
    (hb : b < (l.map Prod.fst).getD t 0) :
    champion b l = some (t, l.get ⟨t, ht⟩) := by
  induction l generalizing b t with
  | nil => simp at ht
  | cons p rest ih =>
    obtain ⟨d, r⟩ := p
    cases t with
    | zero =>
      have hbd : b < d := by simpa using hb
      have hnone : champion d rest = none := by
        apply champion_none
        intro q hq
        obtain ⟨j, rfl⟩ := List.mem_iff_get.mp hq
        have h2 : (rest.map Prod.fst).getD (j : Nat) 0 ≤ d := by
          simpa using hmax ((j : Nat) + 1) (by omega)
            (by simp)
        rw [List.getD_eq_getElem _ _ (by simp)] at h2
        simpa [List.get_eq_getElem] using h2
      show (if b < d then _ else _) = _
      rw [if_pos hbd, hnone]
      rfl
    | succ s =>
      have hs : s < rest.length := by simpa using ht
      have hd : d < (rest.map Prod.fst).getD s 0 := by
        simpa using hfirst 0 (Nat.succ_pos s)
      have hfirst' : ∀ j, j < s →
          (rest.map Prod.fst).getD j 0 < (rest.map Prod.fst).getD s 0 := by
        intro j hj
        simpa using hfirst (j + 1) (by omega)
      have hmax' : ∀ j, s < j → j < rest.length →
          (rest.map Prod.fst).getD j 0 ≤ (rest.map Prod.fst).getD s 0 := by
        intro j hj hjl
        simpa using hmax (j + 1) (by omega) (by simpa using Nat.succ_lt_succ hjl)
      by_cases hbd : b < d
      · show (if b < d then _ else _) = _
        rw [if_pos hbd, ih d s hs hfirst' hmax' hd]
        rfl
      · show (if b < d then _ else _) = _
        have hb' : b < (rest.map Prod.fst).getD s 0 := by simpa using hb
        rw [if_neg hbd, ih b s hs hfirst' hmax' hb']
        rfl

theorem mem_take_fst_iff {R : Type} (vals : List (ℚ × R)) (t : Nat)
    (ht : t < vals.length) (y : ℚ) :
    (∀ p ∈ vals.take t, p.1 < y) ↔
      ∀ s, s < t → (vals.map Prod.fst).getD s 0 < y := by
  constructor
  · intro h s hs
    have hsl : s < vals.length := lt_trans hs ht
    rw [List.getD_eq_getElem _ _ (by simpa using hsl)]
    simp only [List.getElem_map]
    have hstk : s < (vals.take t).length := by simp; omega
    have hlt := h ((vals.take t).get ⟨s, hstk⟩)
      (List.mem_iff_get.mpr ⟨⟨s, hstk⟩, rfl⟩)
    simpa [List.get_eq_getElem, List.getElem_take] using hlt
  · intro h p hp
    obtain ⟨j, rfl⟩ := List.mem_iff_get.mp hp
    have hjt : (j : Nat) < t := by
      have := j.isLt
      simp at this
      omega
    have hjl : (j : Nat) < vals.length := lt_trans hjt ht
    have hy := h j hjt
    rw [List.getD_eq_getElem _ _ (by simpa using hjl)] at hy
    simpa [List.get_eq_getElem, List.getElem_take] using hy

/-- C6 (amended): `best_dice` is non-decreasing across validation
epochs; the tracked quantity of each validation epoch is `avg_dice`,
the mean over classes of the per-class mean dice over all validation
images (`validation`, lines 83-95); the model checkpoint and the stored
`best_rles` are updated exactly at those validation epochs whose
average dice exceeds the initial `best_dice` of 0.0 as well as every
previously observed average dice; and when some epoch improved on 0.0,
the CSV written at the end carries the RLEs and the epoch number of the
validation epoch with the highest average dice (the first attaining
it).  Validation results are listed in epoch order; entry `i` is
validation epoch `1 + i`. -/
theorem best_dice_tracking {R : Type} (C : Nat)
    (epochs : List (List (List (List ℚ)) × R)) (n m t : Nat) (hnm : n ≤ m)
    (ht : t < epochs.length) :
    ((runValidations 1 (initBest R) ((valSequence C epochs).take n)).bestDice
      ≤ (runValidations 1 (initBest R) ((valSequence C epochs).take m)).bestDice) ∧
    (((valSequence C epochs).map Prod.fst).getD t 0
      = avgDice C (epochs.get ⟨t, ht⟩).1) ∧
    (avgDice C (epochs.get ⟨t, ht⟩).1
      = meanQ ((List.range C).map (fun c =>
          meanQ (((epochs.get ⟨t, ht⟩).1.flatten).map (fun r => r.getD c 0))))) ∧
    ((1 + t) ∈ (runValidations 1 (initBest R) (valSequence C epochs)).saved ↔
      (0 < ((valSequence C epochs).map Prod.fst).getD t 0 ∧
       ∀ s, s < t → ((valSequence C epochs).map Prod.fst).getD s 0
         < ((valSequence C epochs).map Prod.fst).getD t 0)) ∧
    ((0 < ((valSequence C epochs).map Prod.fst).getD t 0) →
     (∀ s, s < t → ((valSequence C epochs).map Prod.fst).getD s 0
        < ((valSequence C epochs).map Prod.fst).getD t 0) →
     (∀ s, t < s → s < epochs.length →
        ((valSequence C epochs).map Prod.fst).getD s 0
          ≤ ((valSequence C epochs).map Prod.fst).getD t 0) →
      finalCsv (runValidations 1 (initBest R) (valSequence C epochs))
        = some ((epochs.get ⟨t, ht⟩).2, 1 + t)) := by
  have hlenv : (valSequence C epochs).length = epochs.length := by
    simp [valSequence]
  have htv : t < (valSequence C epochs).length := by
    rw [hlenv]
    exact ht
  have hdt_eq : ((valSequence C epochs).map Prod.fst).getD t 0
      = avgDice C (epochs.get ⟨t, ht⟩).1 := by
    rw [List.getD_eq_getElem _ _ (by simpa using htv)]
    simp [valSequence, List.get_eq_getElem]
  refine ⟨?_, hdt_eq, rfl, ?_, ?_⟩
  · rw [runValidations_bestDice, runValidations_bestDice]
    show ((valSequence C epochs).take n).foldl _ (0 : ℚ)
      ≤ ((valSequence C epochs).take m).foldl _ (0 : ℚ)
    rw [show m = n + (m - n) by omega, List.take_add, List.foldl_append]
    exact le_foldl_max _ _
  · rw [runValidations_saved]
    show (1 + t) ∈ [] ++ recordIdxs (0 : ℚ) 1 (valSequence C epochs) ↔ _
    rw [List.nil_append, recordIdxs_mem_iff (valSequence C epochs) 0 1 t htv,
      foldl_max_lt_iff, mem_take_fst_iff (valSequence C epochs) t htv]
  · intro h0 hfirst hmax
    have hch := champion_first_argmax (valSequence C epochs) 0 t htv hfirst
      (fun s hs hsl => hmax s hs (by rwa [hlenv] at hsl)) h0
    obtain ⟨hrles, hepoch⟩ := runValidations_best (valSequence C epochs) 1 (initBest R)
    have hch2 : champion (initBest R).bestDice (valSequence C epochs)
        = some (t, (valSequence C epochs).get ⟨t, htv⟩) := hch
    have hrles2 : (runValidations 1 (initBest R) (valSequence C epochs)).bestRles
        = some ((valSequence C epochs).get ⟨t, htv⟩).2 := by rw [hrles, hch2]
    have hepoch2 : (runValidations 1 (initBest R) (valSequence C epochs)).bestEpoch
        = 1 + t := by rw [hepoch, hch2]
    have hsnd : ((valSequence C epochs).get ⟨t, htv⟩).2 = (epochs.get ⟨t, ht⟩).2 := by
      simp [valSequence, List.get_eq_getElem]
    unfold finalCsv
    rw [hrles2, hsnd, hepoch2]

theorem best_dice_tracking_witness :
    (1 ≤ 2 ∧
      1 < ([([[[((1 : ℚ))]]], "a"), ([[[3]]], "b"), ([[[2]]], "c")]).length) ∧
    finalCsv (runValidations 1 (initBest String)
        (valSequence 1 [([[[((1 : ℚ))]]], "a"), ([[[3]]], "b"), ([[[2]]], "c")]))
      = some ("b", 2) :=
  ⟨⟨by decide, by decide⟩, by
    have h := (best_dice_tracking 1
        [([[[((1 : ℚ))]]], "a"), ([[[3]]], "b"), ([[[2]]], "c")]
        1 2 1 (by decide) (by decide)).2.2.2.2
      (by norm_num [valSequence, avgDice, dicesPerClass, meanQ, List.range_succ])
      (by
        intro s h1
        have hs : s = 0 := by omega
        subst hs
        norm_num [valSequence, avgDice, dicesPerClass, meanQ, List.range_succ])
      (by
        intro s h1 h2
        simp only [List.length_cons, List.length_nil] at h2
        have hs : s = 2 := by omega
        subst hs
        norm_num [valSequence, avgDice, dicesPerClass, meanQ, List.range_succ])
    exact h⟩

/-- The update condition of the original claim fails on the code: with
the spec-modelled Dice coefficient an epoch's average dice can be
exactly 0 (disjoint masks), and then the first validation epoch
strictly exceeds every previously observed average dice (vacuously)
yet neither the checkpoint nor `best_rles` is updated, because the code
compares against the initial `best_dice = 0.0`. -/
theorem best_dice_update_counterexample :
    (∀ s, s < 0 →
      ((valSequence 1 [([[[diceCoef [true, false] [false, true]]]], "r")]).map
          Prod.fst).getD s 0
        < ((valSequence 1 [([[[diceCoef [true, false] [false, true]]]], "r")]).map
          Prod.fst).getD 0 0) ∧
    (1 + 0) ∉ (runValidations 1 (initBest String)
      (valSequence 1 [([[[diceCoef [true, false] [false, true]]]], "r")])).saved := by
  constructor
  · intro s hs
    exact absurd hs (by omega)
  · have hd : diceCoef [true, false] [false, true] = 0 := by
      norm_num [diceCoef]
    rw [hd]
    have hv : avgDice 1 [[[((0 : ℚ))]]] = 0 := by
      norm_num [avgDice, dicesPerClass, meanQ, List.range_succ]
    simp [valSequence, hv, runValidations, valUpdate, initBest]

/-! ### The RLE collection of `validation` (`validation`, lines 34-78)

`result_rles` grows three parallel lists in lockstep, one append per
(image, class) pair; it is modelled as one list of
(rle, class name, image basename) triples, projected on demand.  The
model function `model` stands for the composite
`sigmoid(model(images)) > thr` producing one mask per class, and `enc`
for `encode_mask_to_rle`. -/

/-- The batch loop of `validation`: the loader yields the dataset entries
in contiguous chunks of `bs` (shuffle=False), `batch_filenames` slices
`dataset.filenames[step*bs : min((step+1)*bs, len)]` — i.e. drop
`step*bs`, take `bs` — and `zip(outputs, batch_filenames)` with
`enumerate(output)` appends one (rle, IND2CLASS[c], basename) triple per
class of each image. -/
def valRun {Img M : Type} (model : Img → List M) (enc : M → String)
    (i2c : Nat → String) (bs : Nat) : List Img → List String →
      List (String × String × String)
  | [], _ => []
  | i :: is, fns =>
      ((((i :: is).take bs).map model).zip (fns.take bs)).flatMap
        (fun p => p.1.enum.map (fun q => (enc q.2, i2c q.1, basename p.2)))
      ++ valRun model enc i2c bs (is.drop (bs - 1)) (fns.drop bs)
  termination_by imgs _ => imgs.length
  decreasing_by
    simp only [List.length_drop, List.length_cons]
    omega

theorem valRun_eq_flat {Img M : Type} (model : Img → List M) (enc : M → String)
    (i2c : Nat → String) (bs : Nat) (hbs : 0 < bs) (imgs : List Img)
    (fns : List String) (hlen : imgs.length = fns.length) :
    valRun model enc i2c bs imgs fns
      = (imgs.zip fns).flatMap
          (fun p => ((model p.1).enum).map
            (fun q => (enc q.2, i2c q.1, basename p.2))) := by
  have hgen : ∀ n (imgs : List Img) (fns : List String),
      imgs.length = fns.length → imgs.length = n →
      valRun model enc i2c bs imgs fns
        = (imgs.zip fns).flatMap
            (fun p => ((model p.1).enum).map
              (fun q => (enc q.2, i2c q.1, basename p.2))) := by
    intro n
    induction n using Nat.strong_induction_on with
    | _ n ihn =>
      intro imgs fns hl hn
      cases imgs with
      | nil => simp [valRun]
      | cons i is =>
        rw [valRun]
        simp only [List.length_cons] at hl hn
        have hdrop : is.drop (bs - 1) = (i :: is).drop bs := by
          cases bs with
          | zero => omega
          | succ b => simp [List.drop_succ_cons]
        have hlrest : ((i :: is).drop bs).length < n := by
          simp only [List.length_drop, List.length_cons]
          omega
        have hlen2 : ((i :: is).drop bs).length = (fns.drop bs).length := by
          simp only [List.length_drop, List.length_cons]
          omega
        rw [hdrop, ihn ((i :: is).drop bs).length hlrest _ _ hlen2 rfl]
        have hsplit : (i :: is).zip fns
            = ((i :: is).take bs).zip (fns.take bs)
              ++ ((i :: is).drop bs).zip (fns.drop bs) := by
          conv_lhs => rw [← List.take_append_drop bs (i :: is),
            ← List.take_append_drop bs fns]
          rw [List.zip_append (by simp [hl])]
        rw [hsplit, List.flatMap_append]
        congr 1
        rw [List.zip_map_left, List.flatMap_map]
        rfl
  exact hgen imgs.length imgs fns hlen rfl

/-- Length of a flatMap whose blocks all have length `C`. -/
theorem flatMap_const_length {α β : Type} (f : α → List β) (C : Nat)
    (l : List α) (hf : ∀ a ∈ l, (f a).length = C) :
    (l.flatMap f).length = l.length * C := by
  induction l with
  | nil => simp
  | cons a as ih =>
    rw [List.flatMap_cons, List.length_append, hf a (by simp),
      ih (fun x hx => hf x (by simp [hx])), List.length_cons]
    ring

/-- Indexing into a flatMap whose blocks all have length `C`. -/
theorem flatMap_const_getD {α β : Type} (f : α → List β) (C : Nat)
    (l : List α) (hf : ∀ a ∈ l, (f a).length = C) (q c : Nat)
    (hq : q < l.length) (hc : c < C) (b0 : β) :
    (l.flatMap f).getD (q * C + c) b0 = (f (l.get ⟨q, hq⟩)).getD c b0 := by
  induction l generalizing q with
  | nil => simp at hq
  | cons a as ih =>
    have hfa : (f a).length = C := hf a (by simp)
    have hfr : ∀ x ∈ as, (f x).length = C := fun x hx => hf x (by simp [hx])
    rw [List.flatMap_cons]
    cases q with
    | zero =>
      rw [Nat.zero_mul, Nat.zero_add,
        List.getD_append _ _ _ _ (by rw [hfa]; exact hc)]
      rfl
    | succ s =>
      have hsq : s < as.length := by simpa using hq
      have hidx : (s + 1) * C + c = (f a).length + (s * C + c) := by
        rw [hfa]; ring
      rw [hidx, List.getD_append_right _ _ _ _ (by omega), Nat.add_sub_cancel_left]
      exact ih hfr s hsq

theorem getD_map_of_lt {α β : Type} (l : List α) (f : α → β) (i : Nat)
    (hi : i < l.length) (d : β) (d0 : α) :
    (l.map f).getD i d = f (l.getD i d0) := by
  rw [List.getD_eq_getElem _ _ (by simpa using hi), List.getElem_map,
    List.getD_eq_getElem _ _ hi]

/-- C7: for a shuffle=False validation loader, the three parallel lists
of `result_rles` all have length (dataset entries × classes) and are
image-major: position `q*C + c` carries the RLE of class `c` of entry
`q`, class name `IND2CLASS[c]`, and the basename of the dataset filename
at position `q`. -/
theorem validation_rles_structure {Img M : Type} (model : Img → List M)
    (enc : M → String) (i2c : Nat → String) (bs C : Nat) (hbs : 0 < bs)
    (imgs : List Img) (fns : List String) (hlen : imgs.length = fns.length)
    (hC : ∀ im, (model im).length = C) (q c : Nat)
    (hq : q < imgs.length) (hc : c < C) (m0 : M) :
    ((valRun model enc i2c bs imgs fns).map (fun x => x.1)).length
      = imgs.length * C ∧
    ((valRun model enc i2c bs imgs fns).map (fun x => x.2.1)).length
      = imgs.length * C ∧
    ((valRun model enc i2c bs imgs fns).map (fun x => x.2.2)).length
      = imgs.length * C ∧
    ((valRun model enc i2c bs imgs fns).map (fun x => x.1)).getD (q * C + c) ""
      = enc ((model (imgs.get ⟨q, hq⟩)).getD c m0) ∧
    ((valRun model enc i2c bs imgs fns).map (fun x => x.2.1)).getD (q * C + c) ""
      = i2c c ∧
    ((valRun model enc i2c bs imgs fns).map (fun x => x.2.2)).getD (q * C + c) ""
      = basename (fns.getD q "") := by
  rw [valRun_eq_flat model enc i2c bs hbs imgs fns hlen]
  have hfC : ∀ p ∈ imgs.zip fns,
      ((fun p => ((model p.1).enum).map
        (fun w => (enc w.2, i2c w.1, basename p.2))) p).length = C := by
    intro p _
    simp [List.enum_length, hC]
  have hqz : q < (imgs.zip fns).length := by
    rw [List.length_zip, ← hlen, Nat.min_self]
    exact hq
  have hLlen : ((imgs.zip fns).flatMap
      (fun p => ((model p.1).enum).map
        (fun w => (enc w.2, i2c w.1, basename p.2)))).length = imgs.length * C := by
    rw [flatMap_const_length _ C _ hfC, List.length_zip, ← hlen, Nat.min_self]
  have hiC : q * C + c < imgs.length * C := by
    have h1 : q * C + c < (q + 1) * C := by
      rw [Nat.succ_mul]
      omega
    have h2 : (q + 1) * C ≤ imgs.length * C := Nat.mul_le_mul_right C (by omega)
    omega
  have hiL : q * C + c < ((imgs.zip fns).flatMap
      (fun p => ((model p.1).enum).map
        (fun w => (enc w.2, i2c w.1, basename p.2)))).length := by
    rw [hLlen]
    exact hiC
  have hqf : q < fns.length := by omega
  have hval : ((imgs.zip fns).flatMap
      (fun p => ((model p.1).enum).map
        (fun w => (enc w.2, i2c w.1, basename p.2)))).getD (q * C + c) ("", "", "")
      = (enc ((model (imgs.get ⟨q, hq⟩)).getD c m0), i2c c, basename (fns.getD q "")) := by
    rw [flatMap_const_getD _ C (imgs.zip fns) hfC q c hqz hc ("", "", "")]
    have hz : (imgs.zip fns).get ⟨q, hqz⟩
        = (imgs.get ⟨q, hq⟩, fns.get ⟨q, hqf⟩) := by
      simp [List.get_eq_getElem, List.getElem_zip]
    rw [hz]
    dsimp only
    have hcm : c < (List.map
        (fun w => (enc w.2, i2c w.1, basename (fns.get ⟨q, hqf⟩)))
        (model (imgs.get ⟨q, hq⟩)).enum).length := by
      simpa [List.enum_length, hC] using hc
    rw [List.getD_eq_getElem _ _ hcm]
    simp only [List.getElem_map, List.getElem_enum]
    have hcC : c < (model (imgs.get ⟨q, hq⟩)).length := by
      rw [hC]; exact hc
    rw [List.getD_eq_getElem _ _ hcC, List.getD_eq_getElem _ _ hqf]
    simp [List.get_eq_getElem]
  refine ⟨?_, ?_, ?_, ?_, ?_, ?_⟩
  · rw [List.length_map, hLlen]
  · rw [List.length_map, hLlen]
  · rw [List.length_map, hLlen]
  · rw [getD_map_of_lt _ _ _ hiL "" ("", "", ""), hval]
  · rw [getD_map_of_lt _ _ _ hiL "" ("", "", ""), hval]
  · rw [getD_map_of_lt _ _ _ hiL "" ("", "", ""), hval]

theorem validation_rles_structure_witness :
    (0 < 2 ∧
      ([10, 20, 30] : List Nat).length
        = (["a/x.png", "b/y.png", "c/z.png"] : List String).length ∧
      2 < ([10, 20, 30] : List Nat).length ∧ 1 < 2) ∧
    ((valRun (fun im : Nat => [im, im + 1]) (fun m : Nat => toString m)
        (fun c => toString c)
        2 [10, 20, 30] ["a/x.png", "b/y.png", "c/z.png"]).map
          (fun x => x.2.1)).getD (2 * 2 + 1) ""
      = toString 1 :=
  ⟨⟨by decide, rfl, by decide, by decide⟩,
    (validation_rles_structure (fun im : Nat => [im, im + 1])
      (fun m : Nat => toString m)
      (fun c => toString c) 2 2 (by decide) [10, 20, 30]
      ["a/x.png", "b/y.png", "c/z.png"] rfl (fun _ => rfl) 2 1
      (by decide) (by decide) 0).2.2.2.2.1⟩

/-! ### The GroupKFold train/validation split
(`XRayDataset.__init__`, lines 40-72)

`GroupKFold(n_splits=5)` assigns each distinct group (the directory part
of a filename) to exactly one of 5 folds: groups are ordered by
decreasing sample count and greedily assigned to the currently lightest
fold; fold `i`'s test set is the set of samples whose group landed in
fold `i`, and `split` yields `(train, test)` index pairs for
`i = 0..4`.  The loop keeps the test sets of all folds other than
`VAL_NUM` as training filenames and the test set of fold `VAL_NUM` as
validation filenames. -/

/-- Stable insertion sort by a boolean `le`. -/
def insertLe {α : Type} (le : α → α → Bool) (x : α) : List α → List α
  | [] => [x]
  | y :: ys => if le x y then x :: y :: ys else y :: insertLe le x ys

/-- Insertion sort (used for `sorted(...)` and the argsort). -/
def isort {α : Type} (le : α → α → Bool) : List α → List α
  | [] => []
  | x :: xs => insertLe le x (isort le xs)

/-- Lexicographic comparison of character lists by code point, the order
Python's `sorted` uses on strings. -/
def listLe : List Char → List Char → Bool
  | [], _ => true
  | _ :: _, [] => false
  | a :: as, b :: bs =>
      if a.toNat < b.toNat then true
      else if b.toNat < a.toNat then false
      else listLe as bs

/-- String comparison by code points. -/
def strLe (a b : String) : Bool := listLe a.data b.data

/-- `np.array(sorted(pngs))`: the PNG set (a list, deduplicated for set
semantics) in sorted order. -/
def sortedFilenames (pngs : List String) : List String :=
  isort strLe pngs.dedup

/-- The sorted distinct group names (`np.unique` of the dirnames). -/
def uniqueGroups (fns : List String) : List String :=
  isort strLe (fns.map dirname).dedup

/-- Samples per group (`n_samples_per_group`). -/
def groupCount (fns : List String) (g : String) : Nat :=
  (fns.map dirname).count g

/-- Group indices with their counts, ordered by decreasing count
(`np.argsort(n_samples_per_group)[::-1]`; ties keep group order). -/
def groupOrder (fns : List String) : List (Nat × Nat) :=
  isort (fun a b => decide (b.2 ≤ a.2))
    ((List.range (uniqueGroups fns).length).map
      (fun i => (i, groupCount fns ((uniqueGroups fns).getD i ""))))

/-- First index of the minimum (`np.argmin`). -/
def argminIdx : List Nat → Nat
  | [] => 0
  | [_] => 0
  | x :: y :: ys =>
      let j := argminIdx (y :: ys)
      if x ≤ (y :: ys).getD j 0 then 0 else j + 1

/-- Greedy assignment of the ordered groups to the fold with the fewest
samples so far (`n_samples_per_fold` starts as five zeros). -/
def assignFolds : List (Nat × Nat) → List Nat → List (Nat × Nat)
  | [], _ => []
  | (g, w) :: rest, sizes =>
      let f := argminIdx sizes
      (g, f) :: assignFolds rest (sizes.set f (sizes.getD f 0 + w))

/-- Association-list lookup of a group index's fold. -/
def lookupFold : List (Nat × Nat) → Nat → Nat
  | [], _ => 0
  | (g, f) :: rest, k => if g = k then f else lookupFold rest k

/-- The fold (`group_to_fold`) of a group. -/
def foldOfGroup (fns : List String) (g : String) : Nat :=
  lookupFold (assignFolds (groupOrder fns) (List.replicate 5 0))
    ((uniqueGroups fns).indexOf g)

/-- The fold of a sample: the fold of its directory group. -/
def foldOfFile (fns : List String) (f : String) : Nat :=
  foldOfGroup fns (dirname f)

/-- Validation filenames (`__init__` lines 65-69): the test fold
`val_num`, in sorted order; empty when `val_num` names no fold. -/
def valFilenames (fns : List String) (v : Nat) : List String :=
  if v < 5 then fns.filter (fun f => foldOfFile fns f = v) else []

/-- Training filenames (`__init__` lines 56-63): the test folds of every
fold other than `val_num`, concatenated in fold order. -/
def trainFilenames (fns : List String) (v : Nat) : List String :=
  ((List.range 5).filter (fun i => i ≠ v)).flatMap
    (fun i => fns.filter (fun f => foldOfFile fns f = i))

theorem argminIdx_lt (l : List Nat) (h : l ≠ []) : argminIdx l < l.length := by
  induction l with
  | nil => exact absurd rfl h
  | cons x xs ih =>
    cases xs with
    | nil => simp [argminIdx]
    | cons y ys =>
      show (if x ≤ (y :: ys).getD (argminIdx (y :: ys)) 0 then 0
        else argminIdx (y :: ys) + 1) < (x :: y :: ys).length
      have hlt := ih (by simp)
      by_cases hc : x ≤ (y :: ys).getD (argminIdx (y :: ys)) 0
      · rw [if_pos hc]
        simp
      · rw [if_neg hc]
        simp only [List.length_cons] at hlt ⊢
        omega

theorem assignFolds_bound (pairs : List (Nat × Nat)) (sizes : List Nat)
    (hs : sizes.length = 5) (p : Nat × Nat) (hp : p ∈ assignFolds pairs sizes) :
    p.2 < 5 := by
  induction pairs generalizing sizes with
  | nil => simp [assignFolds] at hp
  | cons q rest ih =>
    obtain ⟨g, w⟩ := q
    rw [show assignFolds ((g, w) :: rest) sizes
      = (g, argminIdx sizes)
        :: assignFolds rest (sizes.set (argminIdx sizes)
            (sizes.getD (argminIdx sizes) 0 + w)) from rfl] at hp
    rcases List.mem_cons.mp hp with rfl | hp
    · have := argminIdx_lt sizes (by intro hnil; rw [hnil] at hs; simp at hs)
      omega
    · exact ih _ (by rw [List.length_set, hs]) hp

theorem assignFolds_keys (pairs : List (Nat × Nat)) (sizes : List Nat) :
    (assignFolds pairs sizes).map Prod.fst = pairs.map Prod.fst := by
  induction pairs generalizing sizes with
  | nil => rfl
  | cons q rest ih =>
    obtain ⟨g, w⟩ := q
    show (g, argminIdx sizes).1 :: _ = _
    rw [ih]
    simp

theorem lookupFold_lt (l : List (Nat × Nat)) (k : Nat)
    (hb : ∀ p ∈ l, p.2 < 5) (hk : k ∈ l.map Prod.fst) : lookupFold l k < 5 := by
  induction l with
  | nil => simp at hk
  | cons q rest ih =>
    obtain ⟨g, f⟩ := q
    show (if g = k then f else lookupFold rest k) < 5
    by_cases hg : g = k
    · rw [if_pos hg]
      exact hb (g, f) (by simp)
    · rw [if_neg hg]
      have hk2 : k ∈ rest.map Prod.fst := by
        rcases List.mem_cons.mp hk with h | h
        · exact absurd h.symm hg
        · exact h
      exact ih (fun p hp => hb p (by simp [hp])) hk2

theorem mem_insertLe {α : Type} (le : α → α → Bool) (x a : α) (l : List α) :
    a ∈ insertLe le x l ↔ a = x ∨ a ∈ l := by
  induction l with
  | nil => simp [insertLe]
  | cons y ys ih =>
    show a ∈ (if le x y then x :: y :: ys else y :: insertLe le x ys) ↔ _
    by_cases hc : le x y
    · rw [if_pos hc]
      simp
    · rw [if_neg hc]
      rw [List.mem_cons, ih, List.mem_cons]
      tauto

theorem mem_isort {α : Type} (le : α → α → Bool) (a : α) (l : List α) :
    a ∈ isort le l ↔ a ∈ l := by
  induction l with
  | nil => simp [isort]
  | cons x xs ih =>
    show a ∈ insertLe le x (isort le xs) ↔ _
    rw [mem_insertLe, ih, List.mem_cons]

theorem foldOfFile_lt (fns : List String) (f : String) (hf : f ∈ fns) :
    foldOfFile fns f < 5 := by
  have hg : dirname f ∈ uniqueGroups fns := by
    unfold uniqueGroups
    rw [mem_isort, List.mem_dedup]
    exact List.mem_map_of_mem dirname hf
  have hidx : (uniqueGroups fns).indexOf (dirname f) < (uniqueGroups fns).length :=
    List.indexOf_lt_length.mpr hg
  have hkey : (uniqueGroups fns).indexOf (dirname f)
      ∈ (groupOrder fns).map Prod.fst := by
    have hmem : ((uniqueGroups fns).indexOf (dirname f),
        groupCount fns ((uniqueGroups fns).getD
          ((uniqueGroups fns).indexOf (dirname f)) ""))
        ∈ groupOrder fns := by
      unfold groupOrder
      rw [mem_isort]
      exact List.mem_map_of_mem _ (List.mem_range.mpr hidx)
    exact List.mem_map_of_mem Prod.fst hmem
  have hkey2 : (uniqueGroups fns).indexOf (dirname f)
      ∈ (assignFolds (groupOrder fns) (List.replicate 5 0)).map Prod.fst := by
    rw [assignFolds_keys]
    exact hkey
  exact lookupFold_lt _ _
    (fun p hp => assignFolds_bound _ _ (by simp) p hp) hkey2

/-- C2: for a fixed VAL_NUM (< 5, and at least 5 groups so that
`GroupKFold(5)` is well-posed) the training and validation filename
lists are disjoint, their union is the set of all PNG files under
IMAGE_ROOT, no directory group contributes files to both, the validation
list is exactly the test fold VAL_NUM of the 5-way GroupKFold over the
sorted filenames grouped by directory, and the training list is the
union of the other four folds. -/
theorem groupkfold_split (pngs : List String) (v : Nat) (hv : v < 5)
    (hgroups : 5 ≤ (uniqueGroups (sortedFilenames pngs)).length)
    (f g : String) :
    (f ∈ trainFilenames (sortedFilenames pngs) v ↔
      f ∈ sortedFilenames pngs ∧ foldOfFile (sortedFilenames pngs) f ≠ v) ∧
    (f ∈ valFilenames (sortedFilenames pngs) v ↔
      f ∈ sortedFilenames pngs ∧ foldOfFile (sortedFilenames pngs) f = v) ∧
    ¬ (f ∈ trainFilenames (sortedFilenames pngs) v ∧
       f ∈ valFilenames (sortedFilenames pngs) v) ∧
    (f ∈ pngs ↔ f ∈ trainFilenames (sortedFilenames pngs) v ∨
      f ∈ valFilenames (sortedFilenames pngs) v) ∧
    ¬ ((∃ a ∈ trainFilenames (sortedFilenames pngs) v, dirname a = g) ∧
       (∃ b ∈ valFilenames (sortedFilenames pngs) v, dirname b = g)) := by
  have htrain : ∀ x, x ∈ trainFilenames (sortedFilenames pngs) v ↔
      x ∈ sortedFilenames pngs ∧ foldOfFile (sortedFilenames pngs) x ≠ v := by
    intro x
    unfold trainFilenames
    rw [List.mem_flatMap]
    constructor
    · rintro ⟨i, hi, hf⟩
      rw [List.mem_filter] at hi hf
      obtain ⟨hir, hiv⟩ := hi
      obtain ⟨hfm, hff⟩ := hf
      refine ⟨hfm, ?_⟩
      have hfi : foldOfFile (sortedFilenames pngs) x = i := by simpa using hff
      have hiv2 : i ≠ v := by simpa using hiv
      rw [hfi]
      exact hiv2
    · rintro ⟨hfm, hne⟩
      refine ⟨foldOfFile (sortedFilenames pngs) x, ?_, ?_⟩
      · rw [List.mem_filter]
        exact ⟨List.mem_range.mpr (foldOfFile_lt _ x hfm), by simpa using hne⟩
      · rw [List.mem_filter]
        exact ⟨hfm, by simp⟩
  have hval : ∀ x, x ∈ valFilenames (sortedFilenames pngs) v ↔
      x ∈ sortedFilenames pngs ∧ foldOfFile (sortedFilenames pngs) x = v := by
    intro x
    unfold valFilenames
    rw [if_pos hv, List.mem_filter]
    simp
  have hmem : f ∈ sortedFilenames pngs ↔ f ∈ pngs := by
    unfold sortedFilenames
    rw [mem_isort, List.mem_dedup]
  refine ⟨htrain f, hval f, ?_, ?_, ?_⟩
  · rintro ⟨h1, h2⟩
    exact ((htrain f).mp h1).2 (((hval f).mp h2).2)
  · rw [← hmem, htrain f, hval f]
    constructor
    · intro hf
      by_cases hc : foldOfFile (sortedFilenames pngs) f = v
      · exact Or.inr ⟨hf, hc⟩
      · exact Or.inl ⟨hf, hc⟩
    · rintro (⟨hf, _⟩ | ⟨hf, _⟩) <;> exact hf
  · rintro ⟨⟨a, ha, hag⟩, b, hb, hbg⟩
    have h1 := ((htrain a).mp ha).2
    have h2 := ((hval b).mp hb).2
    have hab : foldOfFile (sortedFilenames pngs) a
        = foldOfFile (sortedFilenames pngs) b := by
      unfold foldOfFile
      rw [hag, hbg]
    rw [hab, h2] at h1
    exact h1 rfl

theorem groupkfold_split_witness :
    (0 < 5 ∧ 5 ≤ (uniqueGroups (sortedFilenames
      ["a/1.png", "b/2.png", "c/3.png", "d/4.png", "e/5.png"])).length) ∧
    ¬ ("a/1.png" ∈ trainFilenames (sortedFilenames
        ["a/1.png", "b/2.png", "c/3.png", "d/4.png", "e/5.png"]) 0 ∧
      "a/1.png" ∈ valFilenames (sortedFilenames
        ["a/1.png", "b/2.png", "c/3.png", "d/4.png", "e/5.png"]) 0) :=
  ⟨⟨by decide, by decide⟩,
    (groupkfold_split ["a/1.png", "b/2.png", "c/3.png", "d/4.png", "e/5.png"]
      0 (by decide) (by decide) "a/1.png" "a").2.2.1⟩

end XRay
